import Mathlib

/-!
Verification of the ccbuilder compiler-cache / patch-database / bisection
core against its natural-language specification.

The Python sources are shallowly embedded: each Python function is
translated into an executable Lean definition operating on explicit state
values.  Filesystem facts (existence of the `DONE` success marker, of the
install directory, of the `WORKER_PID` lock record) are carried in explicit
state records; the git repository interface, an external collaborator, is a
record of abstract functions.  Python exceptions become explicit error
constructors.
-/

namespace CCBuilder

/-- A git commit hash (ccbuilder's `Commit = str`). -/
abbrev Commit := String

/-- The closed enumeration of compiler projects (`utils.CompilerProject`). -/
inductive CompilerProject where
  | GCC
  | LLVM
  deriving DecidableEq, Repr

/-- Embeds `CompilerProject.to_string` from `utils/utils.py`. -/
def CompilerProject.to_string : CompilerProject → String
  | .GCC => "gcc"
  | .LLVM => "clang"

/-- Embeds `compilerstore.BuiltCompilerInfo`.  The `pfx` field is the
install-directory path (`prefix` in the source, renamed), stored as a
string as in the database rows. -/
structure BuiltCompilerInfo where
  project : CompilerProject
  pfx : String
  commit : Commit
  deriving DecidableEq, Repr

/-- The persistent state of `compilerstore.CompilerStore`: the rows of the
`compilers` table and of the `failed_compiler_builts` table.  Row order is
insertion order; the `UNIQUE(project, commit_)` constraints are enforced by
the embedded insert operations. -/
structure StoreState where
  built : List BuiltCompilerInfo
  failed : List (CompilerProject × Commit)
  deriving DecidableEq, Repr

/-- The empty database, as created by the `CREATE TABLE` statements of
`CompilerStore.__init__` on a fresh file. -/
def StoreState.empty : StoreState := ⟨[], []⟩

/-- The `SELECT * FROM compilers WHERE project=? AND commit_=?` lookup
(first row; at most one exists by the UNIQUE constraint). -/
def findBuilt (st : StoreState) (p : CompilerProject) (c : Commit) :
    Option BuiltCompilerInfo :=
  st.built.find? (fun e => e.project == p && e.commit == c)

/-- Embeds `CompilerStore.remove_compiler`: `DELETE FROM compilers WHERE
project=? AND commit_=?`. -/
def remove_compiler (st : StoreState) (p : CompilerProject) (c : Commit) :
    StoreState :=
  { st with built := st.built.filter (fun e => !(e.project == p && e.commit == c)) }

/-- Embeds `CompilerStore.get_built_compiler`.  `done pfx` tells whether
the file `pfx/DONE` exists on disk.  A recorded entry whose success marker
is missing is evicted (the source's lazy stale-entry purge) and `none` is
returned, so the call both reads and may mutate the store. -/
def get_built_compiler (done : String → Bool) (st : StoreState)
    (p : CompilerProject) (c : Commit) : StoreState × Option BuiltCompilerInfo :=
  match findBuilt st p c with
  | none => (st, none)
  | some e =>
      if done e.pfx then (st, some e)
      else (remove_compiler st p c, none)

/-- Embeds `CompilerStore.has_previously_failed_to_build`. -/
def has_previously_failed_to_build (st : StoreState) (p : CompilerProject)
    (c : Commit) : Bool :=
  st.failed.contains (p, c)

/-- Embeds `CompilerStore.add_failed_to_build_compiler`: a no-op when the
key is already recorded, otherwise an insert into
`failed_compiler_builts`. -/
def add_failed_to_build_compiler (st : StoreState) (p : CompilerProject)
    (c : Commit) : StoreState :=
  if has_previously_failed_to_build st p c then st
  else { st with failed := st.failed ++ [(p, c)] }

/-- Embeds `CompilerStore.built_commits`: `SELECT commit_ FROM compilers
WHERE project=?`.  Note that the `DONE` marker is not checked here. -/
def built_commits (st : StoreState) (p : CompilerProject) : List Commit :=
  (st.built.filter (fun e => e.project == p)).map (·.commit)

/-- Embeds `CompilerStore.remove_from_previously_failed_to_build`. -/
def remove_from_previously_failed (st : StoreState) (p : CompilerProject)
    (c : Commit) : StoreState :=
  { st with failed := st.failed.filter (fun k => !(k == (p, c))) }

/-- Error outcomes of `CompilerStore.add_compilers`: the `assert
already_stored == compiler` failure, and the sqlite UNIQUE-constraint
violation of `INSERT INTO compilers`. -/
inductive StoreErr where
  | assertionFailed
  | integrityFailed
  deriving DecidableEq, Repr

/-- Result of the checking loop of `CompilerStore.add_compilers` (the
Python `for compiler in compilers` loop, which runs before the insert
transaction).  `get_built_compiler` may evict stale rows as a side effect,
so the loop threads the store state; an assertion failure aborts the call
with the evictions performed so far already committed. -/
inductive AddChecks where
  | ok (st : StoreState) (newCompilers : List BuiltCompilerInfo)
      (removeFailed : List (CompilerProject × Commit))
  | assertFail (st : StoreState)
  deriving DecidableEq, Repr

/-- The key queued for deletion from the failed table by one iteration of
the `add_compilers` loop: present exactly when
`has_previously_failed_to_build` holds at that point. -/
def failed_delete_entry (st : StoreState) (compiler : BuiltCompilerInfo) :
    List (CompilerProject × Commit) :=
  if has_previously_failed_to_build st compiler.project compiler.commit
  then [(compiler.project, compiler.commit)] else []

/-- The checking loop of `CompilerStore.add_compilers`.  Per element: look
up the stored entry (with possible stale-row eviction), fail the `assert`
when a different entry is stored, otherwise queue the entry for insertion
when absent; independently queue the key for deletion from the failed set
when `has_previously_failed_to_build` holds. -/
def add_compilers_checks (done : String → Bool) (st : StoreState) :
    List BuiltCompilerInfo → AddChecks
  | [] => .ok st [] []
  | compiler :: rest =>
      match get_built_compiler done st compiler.project compiler.commit with
      | (st1, some stored) =>
          if stored = compiler then
            match add_compilers_checks done st1 rest with
            | .ok st2 news removes =>
                .ok st2 news (failed_delete_entry st1 compiler ++ removes)
            | .assertFail st2 => .assertFail st2
          else .assertFail st1
      | (st1, none) =>
          match add_compilers_checks done st1 rest with
          | .ok st2 news removes =>
              .ok st2 (compiler :: news) (failed_delete_entry st1 compiler ++ removes)
          | .assertFail st2 => .assertFail st2

/-- The `executemany("INSERT INTO compilers VALUES (?, ?, ?)", ...)` step:
sequential inserts, failing (and rolling the transaction back) if a
`(project, commit)` key is already present. -/
def run_inserts (st : StoreState) : List BuiltCompilerInfo → Option StoreState
  | [] => some st
  | e :: rest =>
      if (findBuilt st e.project e.commit).isSome then none
      else run_inserts { st with built := st.built ++ [e] } rest

/-- The `executemany("DELETE FROM failed_compiler_builts ...", ...)` step. -/
def run_failed_deletes (st : StoreState)
    (removes : List (CompilerProject × Commit)) : StoreState :=
  { st with failed := st.failed.filter (fun k => !(removes.contains k)) }

/-- Embeds `CompilerStore.add_compilers`.  Returns the final store state
together with the exception raised, if any.  On an assertion failure the
transaction never runs (only the evictions already performed by
`get_built_compiler` survive); on an integrity error the transaction is
rolled back to the post-check state. -/
def add_compilers (done : String → Bool) (st : StoreState)
    (compilers : List BuiltCompilerInfo) : StoreState × Option StoreErr :=
  match add_compilers_checks done st compilers with
  | .assertFail st1 => (st1, some .assertionFailed)
  | .ok st1 news removes =>
      match run_inserts st1 news with
      | none => (st1, some .integrityFailed)
      | some st2 => (run_failed_deletes st2 removes, none)

/-- Embeds `CompilerStore.add_compiler` (`add_compilers` on a singleton). -/
def add_compiler (done : String → Bool) (st : StoreState)
    (compiler : BuiltCompilerInfo) : StoreState × Option StoreErr :=
  add_compilers done st [compiler]

/-- The external git repository interface (`utils/repository.py::Repo`),
an out-of-scope collaborator: a record of abstract query functions.
`direct_first_parent_path older younger` returns the first-parent interval
ordered newest first, i.e. `[younger, ..., older]`, as produced by
`git rev-list --first-parent younger ^older` plus the appended `older`.
`back r n` models `rev_to_commit` applied to the revision string `r ~ n`
(n-th first-parent ancestor). -/
structure RepoModel where
  rev_to_commit : String → Commit
  is_ancestor : Commit → Commit → Bool
  direct_first_parent_path : Commit → Commit → List Commit
  next_bisection_commit : Commit → Commit → Commit
  back : Commit → Nat → Commit

/-- Outcome of `CompilerStore.get_closest_built_compiler_in_range`: either
a normal return (with the possibly-mutated store) or one of the two
`assert` failures in the source. -/
inductive RangeResult where
  | ok (r : Option BuiltCompilerInfo) (st : StoreState)
  | assertFail (st : StoreState)
  deriving DecidableEq, Repr

/-- The first index at which `revision` occurs, mirroring the source's
`for i, c in enumerate(commits): if c == revision: break`. -/
def firstIndexOf (revision : Commit) : List Commit → Nat
  | [] => 0
  | c :: rest => if c == revision then 0 else firstIndexOf revision rest + 1

/-- Embeds `CompilerStore.get_closest_built_compiler_in_range`.  The
filtered path `commits` is ordered oldest first (the source reverses the
newest-first `direct_first_parent_path` output), restricted to members
that are built or equal to the queried revision, with both range endpoints
dropped. -/
def get_closest_built_compiler_in_range (done : String → Bool)
    (repo : RepoModel) (st : StoreState) (p : CompilerProject)
    (revision lower_bound upper_bound : Commit) : RangeResult :=
  let revision := repo.rev_to_commit revision
  let lower_bound := repo.rev_to_commit lower_bound
  let upper_bound := repo.rev_to_commit upper_bound
  if !(repo.is_ancestor revision upper_bound) then .assertFail st else
  match get_built_compiler done st p revision with
  | (st1, some bci) => .ok (some bci) st1
  | (st1, none) =>
    let builtCs := built_commits st1 p
    let commits : List Commit :=
      ((repo.direct_first_parent_path lower_bound upper_bound).filter
        (fun c => (builtCs.contains c || c == revision)
          && c != lower_bound && c != upper_bound)).reverse
    if !(commits.contains revision) then
      if !(repo.is_ancestor revision lower_bound) then .assertFail st1
      else
        match commits with
        | [] => .ok none st1
        | c0 :: _ =>
            match get_built_compiler done st1 p c0 with
            | (st2, r) => .ok r st2
    else
    if commits.length = 1 then .ok none st1
    else
      let i := firstIndexOf revision commits
      let target : Commit :=
        if i = 0 then commits.getD 1 ""
        else if i = commits.length - 1 then commits.getD (commits.length - 2) ""
        else commits.getD (i + 1) ""
      match get_built_compiler done st1 p target with
      | (st2, r) => .ok r st2

/-! ### Helper lemmas about the store lookup and list indexing -/

theorem getD_eq_getElem' {l : List Commit} {i : Nat} (h : i < l.length) :
    l.getD i "" = l[i] := by
  simp [List.getD, List.getElem?_eq_getElem h]

theorem firstIndexOf_lt_length {revision : Commit} {l : List Commit}
    (h : revision ∈ l) : firstIndexOf revision l < l.length := by
  induction l with
  | nil => simp at h
  | cons a l ih =>
      simp only [firstIndexOf]
      by_cases ha : a == revision
      · simp [ha]
      · have hmem : revision ∈ l := by
          rcases List.mem_cons.mp h with h1 | h1
          · exact absurd (by simp [h1]) ha
          · exact h1
        simpa [ha] using Nat.succ_lt_succ (ih hmem)

theorem getD_firstIndexOf {revision : Commit} {l : List Commit}
    (h : revision ∈ l) : l.getD (firstIndexOf revision l) "" = revision := by
  induction l with
  | nil => simp at h
  | cons a l ih =>
      simp only [firstIndexOf]
      by_cases ha : a == revision
      · have h' : a = revision := beq_iff_eq.mp ha
        subst h'
        simp
      · have hmem : revision ∈ l := by
          rcases List.mem_cons.mp h with h1 | h1
          · exact absurd (by simp [h1]) ha
          · exact h1
        simpa [ha] using ih hmem

theorem firstIndexOf_unique {revision : Commit} {l : List Commit}
    (hnd : l.Nodup) (hmem : revision ∈ l) {j : Nat} (hj : j < l.length)
    (h : l[j] = revision) : j = firstIndexOf revision l := by
  have hi := firstIndexOf_lt_length hmem
  have hg : l[j] = l[firstIndexOf revision l] := by
    rw [h, ← getD_eq_getElem' hi, getD_firstIndexOf hmem]
  exact (List.Nodup.getElem_inj_iff hnd).mp hg

theorem get_built_compiler_clean {done : String → Bool} {st : StoreState}
    (hclean : ∀ e ∈ st.built, done e.pfx = true) (p : CompilerProject)
    (c : Commit) : get_built_compiler done st p c = (st, findBuilt st p c) := by
  unfold get_built_compiler
  cases h : findBuilt st p c with
  | none => rfl
  | some e =>
      have he : e ∈ st.built := List.mem_of_find?_eq_some h
      simp [hclean e he]

theorem find_key_of_mem_commits {p : CompilerProject} {c : Commit} :
    ∀ {l : List BuiltCompilerInfo},
    c ∈ (l.filter (fun e => e.project == p)).map (·.commit) →
    ∃ e, l.find? (fun e => e.project == p && e.commit == c) = some e
      ∧ e.project = p ∧ e.commit = c := by
  intro l
  induction l with
  | nil => intro h; simp at h
  | cons a l ih =>
      intro h
      by_cases hkey : (a.project == p && a.commit == c) = true
      · refine ⟨a, ?_, ?_, ?_⟩
        · simp [List.find?, hkey]
        · exact beq_iff_eq.mp (Bool.and_elim_left hkey)
        · exact beq_iff_eq.mp (Bool.and_elim_right hkey)
      · have hmem : c ∈ (l.filter (fun e => e.project == p)).map (·.commit) := by
          by_cases hp : (a.project == p) = true
          · have hc : ¬((a.commit == c) = true) := by
              intro hc; exact hkey (by simp [hp, hc])
            rcases List.mem_map.mp h with ⟨e, he, hec⟩
            rcases List.mem_filter.mp he with ⟨he', hep⟩
            rcases List.mem_cons.mp he' with rfl | he''
            · exact absurd (by simp [hec]) hc
            · exact List.mem_map.mpr ⟨e, List.mem_filter.mpr ⟨he'', hep⟩, hec⟩
          · have hfe : (a :: l).filter (fun e => e.project == p)
                = l.filter (fun e => e.project == p) := by
              simp [List.filter_cons, hp]
            rwa [hfe] at h
        rcases ih hmem with ⟨e, hfind, hp2, hc2⟩
        refine ⟨e, ?_, hp2, hc2⟩
        simpa [List.find?, hkey] using hfind

theorem findBuilt_of_mem_built_commits {st : StoreState} {p : CompilerProject}
    {c : Commit} (h : c ∈ built_commits st p) :
    ∃ e, findBuilt st p c = some e ∧ e.project = p ∧ e.commit = c :=
  find_key_of_mem_commits h

/-- C1: for a closest-built-in-range query whose commit lies on the
filtered first-parent path between the bounds (endpoints excluded,
restricted to built commits or the queried commit, ordered oldest first):
a built query commit is returned directly; otherwise the first element
yields the next (newer) element, the last yields the previous one, any
middle position yields the next (newer) element, and the result is absent
when the filtered list has at most one element. -/
theorem closest_built_in_range_on_path
    (done : String → Bool) (repo : RepoModel) (st : StoreState)
    (p : CompilerProject) (revision lower_bound upper_bound : Commit)
    (commits : List Commit)
    (hresolve : ∀ x, repo.rev_to_commit x = x)
    (hclean : ∀ e ∈ st.built, done e.pfx = true)
    (hanc : repo.is_ancestor revision upper_bound = true)
    (hcommits : commits =
      ((repo.direct_first_parent_path lower_bound upper_bound).filter
        (fun c => ((built_commits st p).contains c || c == revision)
          && c != lower_bound && c != upper_bound)).reverse)
    (hnd : commits.Nodup) :
    (∀ bci, findBuilt st p revision = some bci →
      get_closest_built_compiler_in_range done repo st p revision lower_bound upper_bound
        = .ok (some bci) st)
    ∧ (findBuilt st p revision = none → revision ∈ commits →
      ((commits.length ≤ 1 →
        get_closest_built_compiler_in_range done repo st p revision lower_bound upper_bound
          = .ok none st)
       ∧ (2 ≤ commits.length →
        ∃ bci,
          get_closest_built_compiler_in_range done repo st p revision lower_bound upper_bound
            = .ok (some bci) st
          ∧ bci.project = p
          ∧ bci.commit =
            (if firstIndexOf revision commits = 0 then commits.getD 1 ""
             else if firstIndexOf revision commits = commits.length - 1 then
               commits.getD (commits.length - 2) ""
             else commits.getD (firstIndexOf revision commits + 1) "")))) := by
  constructor
  · intro bci hb
    unfold get_closest_built_compiler_in_range
    simp only [hresolve, hanc, Bool.not_true, get_built_compiler_clean hclean, hb]
    simp
  · intro hb hmem
    have hct : commits.contains revision = true := by simpa using hmem
    constructor
    · intro hlen
      have hlen1 : commits.length = 1 := by
        have : 0 < commits.length := List.length_pos_of_mem hmem
        omega
      unfold get_closest_built_compiler_in_range
      simp only [hresolve, hanc, Bool.not_true, get_built_compiler_clean hclean, hb,
        ← hcommits, hct, Bool.not_false, hlen1]
      simp
    · intro hlen2
      have hi := firstIndexOf_lt_length hmem
      have hbuilt : ∀ j, j < commits.length → j ≠ firstIndexOf revision commits →
          commits.getD j "" ∈ built_commits st p := by
        intro j hj hne
        generalize hx : commits.getD j "" = x
        have hmemj : x ∈ commits := by
          rw [← hx, getD_eq_getElem' hj]; exact List.getElem_mem hj
        have hmemf : x ∈ (repo.direct_first_parent_path lower_bound upper_bound).filter
            (fun c => ((built_commits st p).contains c || c == revision)
              && c != lower_bound && c != upper_bound) := by
          rw [hcommits] at hmemj
          exact List.mem_reverse.mp hmemj
        have hpred := (List.mem_filter.mp hmemf).2
        have hner : ¬((x == revision) = true) := by
          intro he
          refine hne (firstIndexOf_unique hnd hmem hj ?_)
          rw [← getD_eq_getElem' hj, hx]
          exact beq_iff_eq.mp he
        have hor := Bool.and_elim_left (Bool.and_elim_left hpred)
        rcases Bool.or_eq_true_iff.mp hor with hbc | hrc
        · simpa using hbc
        · exact absurd hrc hner
      have htarget : (if firstIndexOf revision commits = 0 then commits.getD 1 ""
          else if firstIndexOf revision commits = commits.length - 1 then
            commits.getD (commits.length - 2) ""
          else commits.getD (firstIndexOf revision commits + 1) "")
            ∈ built_commits st p := by
        by_cases h0 : firstIndexOf revision commits = 0
        · simp only [h0, if_pos rfl]
          exact hbuilt 1 (by omega) (by omega)
        · by_cases hlast : firstIndexOf revision commits = commits.length - 1
          · rw [if_neg h0, if_pos hlast]
            exact hbuilt (commits.length - 2) (by omega) (by omega)
          · simp only [if_neg h0, if_neg hlast]
            exact hbuilt (firstIndexOf revision commits + 1) (by omega) (by omega)
      rcases findBuilt_of_mem_built_commits htarget with ⟨e, hf, hp, hc⟩
      refine ⟨e, ?_, hp, hc⟩
      have hlenne : ¬(commits.length = 1) := by omega
      unfold get_closest_built_compiler_in_range
      simp only [hresolve, hanc, Bool.not_true, get_built_compiler_clean hclean, hb,
        ← hcommits, hct, Bool.not_false, hlenne, if_false, hf]
      simp [hf]

/-- Linear history r → L → x → U used by the concrete range-query
scenarios: `posLin` is the topological position of each commit. -/
def posLin : Commit → Nat
  | "r" => 0
  | "L" => 1
  | "x" => 2
  | "U" => 3
  | _ => 99

/-- Concrete repository for the range-query scenarios: the first-parent
path from L to U is [U, x, L] (newest first), and ancestry follows
`posLin`. -/
def repoLin : RepoModel where
  rev_to_commit := fun x => x
  is_ancestor := fun a b => posLin a ≤ posLin b
  direct_first_parent_path := fun _ _ => ["U", "x", "L"]
  next_bisection_commit := fun _ _ => ""
  back := fun c _ => c

/-- Concrete store for the range-query scenarios: only commit x is built. -/
def stLin : StoreState := ⟨[⟨.GCC, "px", "x"⟩], []⟩

/-- Concrete repository for the C1 witness: first-parent path
[U, c3, c2, c1, L] (newest first). -/
def repoPath5 : RepoModel where
  rev_to_commit := fun x => x
  is_ancestor := fun _ _ => true
  direct_first_parent_path := fun _ _ => ["U", "c3", "c2", "c1", "L"]
  next_bisection_commit := fun _ _ => ""
  back := fun c _ => c

/-- Concrete store for the C1 witness: only c2 is built. -/
def stPath5 : StoreState := ⟨[⟨.GCC, "p2", "c2"⟩], []⟩

/-- Witness for C1, instantiating the theorem at the spec's own example:
path [L, c1, c2, c3, U] with only c2 built and query commit c3; the
filtered list is [c2, c3] (oldest first), c3 is its last element, and the
query returns the previous element c2. -/
theorem closest_built_in_range_on_path_witness :
    ∃ bci,
      get_closest_built_compiler_in_range (fun _ => true) repoPath5 stPath5
        .GCC "c3" "L" "U" = .ok (some bci) stPath5
      ∧ bci.project = .GCC ∧ bci.commit = "c2" := by
  have h := closest_built_in_range_on_path (fun _ => true) repoPath5 stPath5
    .GCC "c3" "L" "U" ["c2", "c3"] (fun _ => rfl) (by decide) (by decide)
    (by decide) (by decide)
  rcases (h.2 (by decide) (by decide)).2 (by decide) with ⟨bci, h1, h2, h3⟩
  exact ⟨bci, h1, h2, by simpa using h3⟩

/-- Counterexample to C6 as stated.  Query commit r is an ancestor of the
lower bound L and absent from the filtered path, whose only element x is
strictly newer than L — so no element of the filtered list is strictly
older than L and the claim demands an absent result — yet the query
returns the built compiler at x. -/
theorem claim_c6_counterexample :
    (((repoLin.direct_first_parent_path "L" "U").filter
        (fun c => ((built_commits stLin .GCC).contains c || c == "r")
          && c != "L" && c != "U")).reverse = ["x"])
    ∧ "r" ∉ (["x"] : List Commit)
    ∧ repoLin.is_ancestor "r" "L" = true
    ∧ ¬(repoLin.is_ancestor "x" "L" = true ∧ "x" ≠ "L")
    ∧ get_closest_built_compiler_in_range (fun _ => true) repoLin stLin
        .GCC "r" "L" "U" = .ok (some ⟨.GCC, "px", "x"⟩) stLin := by
  refine ⟨by decide, by decide, by decide, by decide, by decide⟩

/-- C6 (amended): for a closest-built-in-range query whose un-built commit
does not appear in the filtered first-parent path between the bounds (the
query targets an ancestor of lower_bound on a side branch), the query
returns the oldest element of the filtered list — the built commit nearest
to lower_bound, which is strictly newer than lower_bound — when the
filtered list is nonempty, and absent otherwise. -/
theorem closest_built_in_range_side_branch
    (done : String → Bool) (repo : RepoModel) (st : StoreState)
    (p : CompilerProject) (revision lower_bound upper_bound : Commit)
    (commits : List Commit)
    (hresolve : ∀ x, repo.rev_to_commit x = x)
    (hclean : ∀ e ∈ st.built, done e.pfx = true)
    (hanc : repo.is_ancestor revision upper_bound = true)
    (hancl : repo.is_ancestor revision lower_bound = true)
    (hb : findBuilt st p revision = none)
    (hcommits : commits =
      ((repo.direct_first_parent_path lower_bound upper_bound).filter
        (fun c => ((built_commits st p).contains c || c == revision)
          && c != lower_bound && c != upper_bound)).reverse)
    (hnotmem : revision ∉ commits) :
    (commits = [] →
      get_closest_built_compiler_in_range done repo st p revision lower_bound upper_bound
        = .ok none st)
    ∧ (∀ c0 rest, commits = c0 :: rest →
      ∃ bci,
        get_closest_built_compiler_in_range done repo st p revision lower_bound upper_bound
          = .ok (some bci) st
        ∧ bci.project = p ∧ bci.commit = c0 ∧ c0 ≠ lower_bound) := by
  have hct : commits.contains revision = false := by
    simpa using hnotmem
  constructor
  · intro hnil
    unfold get_closest_built_compiler_in_range
    simp only [hresolve, hanc, Bool.not_true, get_built_compiler_clean hclean, hb,
      ← hcommits, hct, Bool.not_false, hancl, hnil]
    simp
  · intro c0 rest hcons
    have hmem0 : c0 ∈ commits := by rw [hcons]; exact List.mem_cons_self c0 rest
    have hmemf : c0 ∈ (repo.direct_first_parent_path lower_bound upper_bound).filter
        (fun c => ((built_commits st p).contains c || c == revision)
          && c != lower_bound && c != upper_bound) := by
      rw [hcommits] at hmem0
      exact List.mem_reverse.mp hmem0
    have hpred := (List.mem_filter.mp hmemf).2
    have hner : ¬((c0 == revision) = true) := by
      intro he
      exact hnotmem (beq_iff_eq.mp he ▸ hmem0)
    have hor := Bool.and_elim_left (Bool.and_elim_left hpred)
    have hbc : c0 ∈ built_commits st p := by
      rcases Bool.or_eq_true_iff.mp hor with hbc | hrc
      · simpa using hbc
      · exact absurd hrc hner
    have hnl : c0 ≠ lower_bound := by
      have := Bool.and_elim_right (Bool.and_elim_left hpred)
      simpa using this
    rcases findBuilt_of_mem_built_commits hbc with ⟨e, hf, hp, hc⟩
    refine ⟨e, ?_, hp, hc, hnl⟩
    have hct' : (c0 :: rest).contains revision = false := by
      rw [← hcons]; exact hct
    unfold get_closest_built_compiler_in_range
    simp only [hresolve, hanc, Bool.not_true, get_built_compiler_clean hclean, hb,
      ← hcommits, hcons, hct', Bool.not_false, hancl, hf]
    simp [hf]

/-- Witness for the amended C6 theorem, instantiated on the linear history
r → L → x → U with only x built and query commit r: the filtered list is
[x] and the query returns the compiler built at x. -/
theorem closest_built_in_range_side_branch_witness :
    ∃ bci,
      get_closest_built_compiler_in_range (fun _ => true) repoLin stLin
        .GCC "r" "L" "U" = .ok (some bci) stLin
      ∧ bci.project = .GCC ∧ bci.commit = "x" ∧ "x" ≠ "L" := by
  have h := closest_built_in_range_side_branch (fun _ => true) repoLin stLin
    .GCC "r" "L" "U" ["x"] (fun _ => rfl) (by decide) (by decide) (by decide)
    (by decide) (by decide) (by decide)
  exact h.2 "x" [] rfl

/-! ### Store success/failure bookkeeping (claim C2) -/

theorem get_built_compiler_fst_failed (done : String → Bool) (st : StoreState)
    (p : CompilerProject) (c : Commit) :
    (get_built_compiler done st p c).1.failed = st.failed := by
  unfold get_built_compiler
  cases h : findBuilt st p c with
  | none => rfl
  | some e =>
      by_cases hd : done e.pfx = true
      · simp [hd]
      · simp [hd, remove_compiler]

theorem add_compilers_checks_ok_spec (done : String → Bool) :
    ∀ (cs : List BuiltCompilerInfo) (st st1 : StoreState)
      (news : List BuiltCompilerInfo) (removes : List (CompilerProject × Commit)),
    add_compilers_checks done st cs = .ok st1 news removes →
    st1.failed = st.failed
    ∧ (∀ c ∈ cs, (c.project, c.commit) ∈ st.failed → (c.project, c.commit) ∈ removes) := by
  intro cs
  induction cs with
  | nil =>
      intro st st1 news removes h
      unfold add_compilers_checks at h
      injection h with h1 h2 h3
      subst h1
      simp
  | cons c rest ih =>
      intro st st1 news removes h
      unfold add_compilers_checks at h
      split at h
      · rename_i stA stored heq
        have hfa : stA.failed = st.failed := by
          have hq := get_built_compiler_fst_failed done st c.project c.commit
          rw [heq] at hq
          exact hq
        split at h
        · split at h
          · rename_i st2 news2 removes2 hrec
            injection h with h1 h2 h3
            subst h1 h2 h3
            rcases ih stA st2 news2 removes2 hrec with ⟨hfeq, hsub⟩
            refine ⟨by rw [hfeq, hfa], ?_⟩
            intro c' hc' hmemf
            rcases List.mem_cons.mp hc' with rfl | hc''
            · have hpf : has_previously_failed_to_build stA c'.project c'.commit = true := by
                unfold has_previously_failed_to_build
                rw [hfa]
                simpa using hmemf
              simp [failed_delete_entry, hpf]
            · exact List.mem_append_right _ (hsub c' hc'' (by rwa [← hfa] at hmemf))
          · simp at h
        · simp at h
      · rename_i stA heq
        have hfa : stA.failed = st.failed := by
          have hq := get_built_compiler_fst_failed done st c.project c.commit
          rw [heq] at hq
          exact hq
        split at h
        · rename_i st2 news2 removes2 hrec
          injection h with h1 h2 h3
          subst h1 h2 h3
          rcases ih stA st2 news2 removes2 hrec with ⟨hfeq, hsub⟩
          refine ⟨by rw [hfeq, hfa], ?_⟩
          intro c' hc' hmemf
          rcases List.mem_cons.mp hc' with rfl | hc''
          · have hpf : has_previously_failed_to_build stA c'.project c'.commit = true := by
              unfold has_previously_failed_to_build
              rw [hfa]
              simpa using hmemf
            simp [failed_delete_entry, hpf]
          · exact List.mem_append_right _ (hsub c' hc'' (by rwa [← hfa] at hmemf))
        · simp at h

theorem run_inserts_failed :
    ∀ (news : List BuiltCompilerInfo) (st st' : StoreState),
    run_inserts st news = some st' → st'.failed = st.failed := by
  intro news
  induction news with
  | nil =>
      intro st st' h
      unfold run_inserts at h
      injection h with h1
      rw [← h1]
  | cons e rest ih =>
      intro st st' h
      unfold run_inserts at h
      by_cases hk : (findBuilt st e.project e.commit).isSome = true
      · rw [if_pos hk] at h
        cases h
      · rw [if_neg hk] at h
        have hx := ih _ st' h
        exact hx

theorem has_failed_run_deletes (st : StoreState)
    (removes : List (CompilerProject × Commit)) (p : CompilerProject) (c : Commit) :
    has_previously_failed_to_build (run_failed_deletes st removes) p c = true ↔
    ((p, c) ∈ st.failed ∧ (p, c) ∉ removes) := by
  unfold has_previously_failed_to_build run_failed_deletes
  simp [List.mem_filter]

/-- Counterexample to C2 as stated.  Starting from an empty store, record
a successful build for (GCC, ca), then record a failure for the same key:
`add_failed_to_build_compiler` does not consult the built table, so the
key ends up in both relations, violating the claimed mutual-exclusion
invariant over arbitrary operation sequences. -/
theorem claim_c2_counterexample :
    (add_compilers (fun _ => true) StoreState.empty [⟨.GCC, "pa", "ca"⟩]).2 = none
    ∧ (findBuilt (add_failed_to_build_compiler
        (add_compilers (fun _ => true) StoreState.empty [⟨.GCC, "pa", "ca"⟩]).1
        .GCC "ca") .GCC "ca").isSome = true
    ∧ has_previously_failed_to_build (add_failed_to_build_compiler
        (add_compilers (fun _ => true) StoreState.empty [⟨.GCC, "pa", "ca"⟩]).1
        .GCC "ca") .GCC "ca" = true := by
  refine ⟨by decide, by decide, by decide⟩

/-- C2 (amended): recording a success via `add_compilers` clears any prior
failure record for each recorded key; re-recording an entry equal to the
stored one leaves the built table unchanged (no-op); recording a different
entry for an already-stored key fails loudly with an assertion error and
stores nothing; but recording a failure does not consult the built
relation, so a failure recorded for an already-built key leaves the key
present in both relations — built/failed mutual exclusion therefore holds
after each successful `add_compilers` for the keys it recorded, but is not
an invariant under arbitrary operation sequences. -/
theorem store_success_failure_discipline (done : String → Bool)
    (st : StoreState) (cs : List BuiltCompilerInfo) :
    (∀ st', add_compilers done st cs = (st', none) →
      ∀ c ∈ cs, has_previously_failed_to_build st' c.project c.commit = false)
    ∧ (∀ bci, findBuilt st bci.project bci.commit = some bci →
        done bci.pfx = true →
        ∀ st' err, add_compilers done st [bci] = (st', err) →
          err = none ∧ st'.built = st.built)
    ∧ (∀ bci stored, findBuilt st bci.project bci.commit = some stored →
        done stored.pfx = true → stored ≠ bci →
        add_compilers done st [bci] = (st, some .assertionFailed))
    ∧ (∀ p c, (findBuilt st p c).isSome = true →
        (findBuilt (add_failed_to_build_compiler st p c) p c).isSome = true
        ∧ has_previously_failed_to_build (add_failed_to_build_compiler st p c) p c = true) := by
  refine ⟨?_, ?_, ?_, ?_⟩
  · intro st' h c hc
    unfold add_compilers at h
    cases hchk : add_compilers_checks done st cs with
    | assertFail st1 =>
        simp only [hchk] at h
        simp at h
    | ok st1 news removes =>
        simp only [hchk] at h
        rcases add_compilers_checks_ok_spec done cs st st1 news removes hchk with ⟨hfeq, hsub⟩
        cases hins : run_inserts st1 news with
        | none =>
            simp only [hins] at h
            simp at h
        | some st2 =>
            simp only [hins] at h
            injection h with h1 h2
            subst h1
            have hf2 : st2.failed = st.failed := by
              rw [run_inserts_failed news st1 st2 hins, hfeq]
            by_cases hin : (c.project, c.commit) ∈ st.failed
            · have hiff := has_failed_run_deletes st2 removes c.project c.commit
              rw [Bool.eq_false_iff]
              intro hcontra
              exact ((hiff.mp hcontra).2) (hsub c hc hin)
            · rw [Bool.eq_false_iff]
              intro hcontra
              have hiff := (has_failed_run_deletes st2 removes c.project c.commit).mp hcontra
              rw [hf2] at hiff
              exact hin hiff.1
  · intro bci hfind hdone st' err h
    have hge : get_built_compiler done st bci.project bci.commit = (st, some bci) := by
      unfold get_built_compiler
      simp only [hfind]
      simp [hdone]
    have hchk : add_compilers_checks done st [bci]
        = .ok st [] (failed_delete_entry st bci ++ []) := by
      unfold add_compilers_checks
      simp only [hge]
      simp [add_compilers_checks]
    unfold add_compilers at h
    simp only [hchk] at h
    simp only [run_inserts] at h
    injection h with h1 h2
    refine ⟨h2.symm, ?_⟩
    rw [← h1]
    rfl
  · intro bci stored hfind hdone hne
    have hge : get_built_compiler done st bci.project bci.commit = (st, some stored) := by
      unfold get_built_compiler
      simp only [hfind]
      simp [hdone]
    unfold add_compilers add_compilers_checks
    simp only [hge]
    simp [hne]
  · intro p c hsome
    unfold add_failed_to_build_compiler
    by_cases hf : has_previously_failed_to_build st p c = true
    · simp [hf, hsome]
    · rw [if_neg hf]
      constructor
      · simpa [findBuilt] using hsome
      · unfold has_previously_failed_to_build
        simp

/-- Witness for the amended C2 theorem: a store with (GCC, ca) built and
both (GCC, ca) and (GCC, cb) failed; recording a success for (GCC, cb)
clears its failure record, and recording a failure for the built key
(GCC, ca) leaves that key in both relations. -/
theorem store_success_failure_discipline_witness :
    (∀ st', add_compilers (fun _ => true)
        ⟨[⟨.GCC, "pa", "ca"⟩], [(.GCC, "cb")]⟩ [⟨.GCC, "pb", "cb"⟩] = (st', none) →
      ∀ c ∈ [(⟨.GCC, "pb", "cb"⟩ : BuiltCompilerInfo)],
        has_previously_failed_to_build st' c.project c.commit = false)
    ∧ ((findBuilt (add_failed_to_build_compiler
          (⟨[⟨.GCC, "pa", "ca"⟩], [(.GCC, "cb")]⟩ : StoreState) .GCC "ca")
          .GCC "ca").isSome = true
        ∧ has_previously_failed_to_build (add_failed_to_build_compiler
          (⟨[⟨.GCC, "pa", "ca"⟩], [(.GCC, "cb")]⟩ : StoreState) .GCC "ca")
          .GCC "ca" = true) := by
  have h := store_success_failure_discipline (fun _ => true)
    ⟨[⟨.GCC, "pa", "ca"⟩], [(.GCC, "cb")]⟩ [⟨.GCC, "pb", "cb"⟩]
  exact ⟨h.1, h.2.2.2 .GCC "ca" (by decide)⟩

/-! ### Patch database (`patcher/patchdatabase.py`)

The backing store `PatchDB.data` is one JSON document: a Python dict from
string keys to either a list of strings (patch entries keyed by basename,
and the `"manual"` entry) or the nested `"bad"` dict
`compiler -> commit -> list of patch-basename combinations`.  Python dicts
preserve insertion order, so the document is modelled as an association
list; Python's `in` on a list is element membership and on a dict is key
membership.  Operations that would raise a Python `TypeError` or
`AttributeError` (e.g. extending a dict value as if it were a list)
return `none`. -/

/-- A value of the `PatchDB.data` document. -/
inductive DBVal where
  | strs (l : List String)
  | badMap (d : List (String × List (String × List (List String))))
  deriving DecidableEq, Repr

/-- Dict lookup on an association list (first matching key). -/
def alistFind {α : Type} (d : List (String × α)) (k : String) : Option α :=
  (d.find? (fun kv => kv.1 == k)).map (·.2)

/-- Dict assignment `d[k] = v`: replace in place when the key is present,
append otherwise (Python dicts keep the original insertion position on
re-assignment). -/
def alistSet {α : Type} (d : List (String × α)) (k : String) (v : α) :
    List (String × α) :=
  if (d.find? (fun kv => kv.1 == k)).isSome then
    d.map (fun kv => if kv.1 == k then (k, v) else kv)
  else d ++ [(k, v)]

/-- Python's `commit in value` for the two value shapes: list membership
for lists, key membership for the `"bad"` dict. -/
def pyContains (c : String) : DBVal → Bool
  | .strs l => l.contains c
  | .badMap d => (d.map Prod.fst).contains c

/-- The whole `PatchDB.data` document. -/
abbrev PatchDBData := List (String × DBVal)

/-- Embeds `PatchDB.save` (patches are keyed by their basename; the
basename extraction from a `Path` is external string processing, so the
basename is taken as the argument).  When the key is new the commits are
stored, otherwise the existing list is extended; in both cases the list is
deduplicated (`list(set(...))`, modelled by `List.dedup`, which keeps one
occurrence per element — only membership in the stored list is ever
consumed).  Extending a dict value (the `"bad"` key) as if it were a list
would raise, hence `none`. -/
def pdb_save (db : PatchDBData) (patchBase : String) (commits : List String) :
    Option PatchDBData :=
  match alistFind db patchBase with
  | none => some (alistSet db patchBase (.strs commits.dedup))
  | some (.strs l) => some (alistSet db patchBase (.strs (l ++ commits).dedup))
  | some (.badMap _) => none

/-- Embeds `PatchDB.save_bad`: appends the list of patch basenames, in the
order given, to `data["bad"][compiler][commit]`, creating the intermediate
dicts as needed.  A pre-existing non-dict `"bad"` value would raise. -/
def pdb_save_bad (db : PatchDBData) (patchBases : List String)
    (commit : String) (compilerName : String) : Option PatchDBData :=
  let db1 := if (alistFind db "bad").isSome then db
    else alistSet db "bad" (.badMap [])
  match alistFind db1 "bad" with
  | some (.badMap d) =>
      let d1 := if (alistFind d compilerName).isSome then d
        else alistSet d compilerName []
      let inner := (alistFind d1 compilerName).getD []
      let inner1 := if (alistFind inner commit).isSome then inner
        else alistSet inner commit []
      let combos := (alistFind inner1 commit).getD []
      some (alistSet db1 "bad"
        (.badMap (alistSet d1 compilerName (alistSet inner1 commit (combos ++ [patchBases])))))
  | _ => none

/-- Lexicographic code-point comparison of character lists (Python's
string `<=`). -/
def charListLeb : List Char → List Char → Bool
  | [], _ => true
  | _ :: _, [] => false
  | a :: as, b :: bs =>
      if a.toNat < b.toNat then true
      else if b.toNat < a.toNat then false
      else charListLeb as bs

/-- Python's string `<=`: lexicographic by code point. -/
def strLeb (a b : String) : Bool := charListLeb a.data b.data

/-- Ordered insertion into a sorted list of strings. -/
def sortedInsert (a : String) : List String → List String
  | [] => [a]
  | b :: l => if strLeb a b then a :: b :: l else b :: sortedInsert a l

/-- Python's `sorted` on a list of strings (lexicographic by code point;
string comparison is a linear order, so any correct sort yields the same
list — insertion sort is used for kernel reducibility). -/
def pySorted : List String → List String
  | [] => []
  | a :: l => sortedInsert a (pySorted l)

/-- Embeds `PatchDB.is_known_bad`.  The query hash is
`hash("".join(patches_str))` over the given basenames in the order given,
while each stored combination is hashed as `hash("".join(sorted(known_bad)))`
— sorted on the stored side only.  The Python string hash is modelled as
injective, so hash equality becomes equality of the joined strings.
Indexing a non-dict `"bad"` value would raise, hence the `Option`. -/
def pdb_is_known_bad (db : PatchDBData) (patchBases : List String)
    (commit : String) (compilerName : String) : Option Bool :=
  match alistFind db "bad" with
  | none => some false
  | some (.strs l) => if l.contains compilerName then none else some false
  | some (.badMap d) =>
      match alistFind d compilerName with
      | none => some false
      | some inner =>
          match alistFind inner commit with
          | none => some false
          | some combos =>
              some (combos.any (fun combo =>
                String.join patchBases == String.join (pySorted combo)))

/-- Embeds `PatchDB.required_patches`: every top-level key whose value
contains the commit (Python `in`, i.e. also the `"bad"` and `"manual"`
keys take part in the iteration).  The source prefixes each basename with
the constant `patch_path_prefix`; the basenames are returned here. -/
def pdb_required_patches (db : PatchDBData) (commit : String) : List String :=
  (db.filter (fun kv => pyContains commit kv.2)).map Prod.fst

/-- Embeds `PatchDB.requires_all_these_patches`. -/
def pdb_requires_all_these_patches (db : PatchDBData) (commit : String)
    (patchBases : List String) : Bool :=
  if patchBases.any (fun b => (alistFind db b).isNone) then false
  else patchBases.all (fun b => pyContains commit ((alistFind db b).getD (.strs [])))

/-- Embeds `PatchDB.manual_intervention_required`. -/
def pdb_manual_intervention (db : PatchDBData) (compilerName rev : String) :
    Option PatchDBData :=
  let db1 := if (alistFind db "manual").isSome then db
    else alistSet db "manual" (.strs [])
  match alistFind db1 "manual" with
  | some (.strs l) =>
      some (alistSet db1 "manual" (.strs ((l ++ [compilerName ++ " " ++ rev]).dedup)))
  | _ => none

/-- Outcome classification of `patcher.PatchingResult`. -/
inductive PatchingResult where
  | BuildsWithoutPatching
  | BuildsWithPatching
  | BuildFailed
  deriving DecidableEq, Repr

/-- Embeds `Patcher._check_building_patches`.  The builder call
`self._build(project, rev, additional_patches)` is abstracted by
`buildOk : List String → Bool`, the build outcome as a function of the
additional patches passed; `commit` is the already-resolved
`repo.rev_to_commit(rev)`.  Returns the classification, the number of
builder invocations performed, and the patch database afterwards (updated
by `manual_intervention_required` on a double failure). -/
def check_building_patches (db : PatchDBData) (commit : String)
    (compilerName rev : String) (buildOk : List String → Bool)
    (patchBases : List String) : PatchingResult × Nat × Option PatchDBData :=
  if !(pdb_requires_all_these_patches db commit patchBases) then
    if buildOk [] then (.BuildsWithoutPatching, 1, some db)
    else if buildOk patchBases then (.BuildsWithPatching, 2, some db)
    else (.BuildFailed, 2, pdb_manual_intervention db compilerName rev)
  else (.BuildsWithPatching, 0, some db)

/-- C4 (code bug): `save_bad` followed by `is_known_bad` with the very
same patch list ["b.patch", "a.patch"] misses (the query is hashed
unsorted while the stored combination is hashed sorted), yet the same set
queried in sorted order ["a.patch", "b.patch"] hits — the memoization
breaks its own order-independence contract, and even exact-replay lookup,
whenever the basenames are not given in sorted order. -/
theorem claim_c4_code_bug :
    (pdb_save_bad [] ["b.patch", "a.patch"] "c1" "gcc").isSome = true
    ∧ (pdb_save_bad [] ["b.patch", "a.patch"] "c1" "gcc").bind
        (fun db => pdb_is_known_bad db ["b.patch", "a.patch"] "c1" "gcc") = some false
    ∧ (pdb_save_bad [] ["b.patch", "a.patch"] "c1" "gcc").bind
        (fun db => pdb_is_known_bad db ["a.patch", "b.patch"] "c1" "gcc") = some true := by
  refine ⟨by decide, by decide, by decide⟩

/-- C10: the universal quantification of `requires_all_these_patches` over
an empty patch list is vacuously true, so `_check_building_patches` with
an empty patch list classifies the commit as building-with-patching
without invoking the builder at all. -/
theorem requires_all_patches_empty (db : PatchDBData) (commit : String)
    (compilerName rev : String) (buildOk : List String → Bool) :
    pdb_requires_all_these_patches db commit [] = true
    ∧ check_building_patches db commit compilerName rev buildOk []
        = (.BuildsWithPatching, 0, some db) := by
  constructor
  · simp [pdb_requires_all_these_patches]
  · simp [check_building_patches, pdb_requires_all_these_patches]

/-! ### Save / required_patches round trip (claim C8) -/

/-- A database state reachable by `save` operations alone: every value is
a plain commit list. -/
def savedVals (db : PatchDBData) : Prop :=
  ∀ kv ∈ db, ∃ l, kv.2 = DBVal.strs l

/-- The patch-requirement relation stored in the database: basename `b`
records commit `c`. -/
def dbRel (db : PatchDBData) (b c : String) : Prop :=
  ∃ l, (b, DBVal.strs l) ∈ db ∧ c ∈ l

theorem alist_keys_unique {α : Type} :
    ∀ {d : List (String × α)}, (d.map Prod.fst).Nodup →
    ∀ {a : String} {x y : α}, (a, x) ∈ d → (a, y) ∈ d → x = y := by
  intro d
  induction d with
  | nil =>
      intro _ a x y hx
      simp at hx
  | cons kv rest ih =>
      intro hnd a x y hx hy
      simp only [List.map_cons, List.nodup_cons] at hnd
      rcases List.mem_cons.mp hx with hx1 | hx'
      · rcases List.mem_cons.mp hy with hy1 | hy'
        · have hxy : (a, x) = (a, y) := hx1.trans hy1.symm
          injection hxy with h1 h2
        · exfalso
          apply hnd.1
          rw [← hx1]
          exact List.mem_map.mpr ⟨(a, y), hy', rfl⟩
      · rcases List.mem_cons.mp hy with hy1 | hy'
        · exfalso
          apply hnd.1
          rw [← hy1]
          exact List.mem_map.mpr ⟨(a, x), hx', rfl⟩
        · exact ih hnd.2 hx' hy'

theorem pdb_save_step (db : PatchDBData) (b : String) (cs : List String)
    (hvals : savedVals db) (hnd : (db.map Prod.fst).Nodup) :
    ∃ db', pdb_save db b cs = some db'
    ∧ savedVals db'
    ∧ (db'.map Prod.fst).Nodup
    ∧ (∀ b' c, dbRel db' b' c ↔ (dbRel db b' c ∨ (b' = b ∧ c ∈ cs))) := by
  cases hff : db.find? (fun kv => kv.1 == b) with
  | none =>
      have hf : alistFind db b = none := by
        unfold alistFind
        rw [hff]
        rfl
      have hnotkey : ∀ kv ∈ db, kv.1 ≠ b := by
        intro kv hkv
        have := List.find?_eq_none.mp hff kv hkv
        simpa using this
      refine ⟨db ++ [(b, .strs cs.dedup)], ?_, ?_, ?_, ?_⟩
      · unfold pdb_save
        rw [hf]
        unfold alistSet
        rw [hff]
        simp
      · intro kv hkv
        rcases List.mem_append.mp hkv with h1 | h1
        · exact hvals kv h1
        · rcases List.mem_singleton.mp h1 with rfl
          exact ⟨cs.dedup, rfl⟩
      · rw [List.map_append]
        refine List.Nodup.append hnd (by simp) ?_
        intro a ha hb
        rcases List.mem_map.mp ha with ⟨kv, hkv, rfl⟩
        simp only [List.map_cons, List.map_nil, List.mem_singleton] at hb
        exact hnotkey kv hkv hb
      · intro b' c
        unfold dbRel
        constructor
        · rintro ⟨l, hmem, hc⟩
          rcases List.mem_append.mp hmem with h1 | h1
          · exact Or.inl ⟨l, h1, hc⟩
          · rcases List.mem_singleton.mp h1 with heq
            injection heq with h2 h3
            injection h3 with h4
            subst h2
            refine Or.inr ⟨rfl, ?_⟩
            rw [h4] at hc
            exact List.mem_dedup.mp hc
        · rintro (⟨l, hmem, hc⟩ | ⟨rfl, hc⟩)
          · exact ⟨l, List.mem_append_left _ hmem, hc⟩
          · exact ⟨cs.dedup, List.mem_append_right _ (by simp),
              List.mem_dedup.mpr hc⟩
  | some kv =>
      have hkv : kv ∈ db := List.mem_of_find?_eq_some hff
      have hkey : kv.1 = b := by
        have := List.find?_some hff
        simpa using this
      rcases hvals kv hkv with ⟨l, hl⟩
      have hf : alistFind db b = some (.strs l) := by
        unfold alistFind
        rw [hff]
        simp [hl]
      have hentry : (b, DBVal.strs l) ∈ db := by
        have : kv = (b, DBVal.strs l) := by
          rcases kv with ⟨k1, k2⟩
          simp only at hkey hl
          rw [hkey, hl]
        rwa [this] at hkv
      have hmapkeys : (db.map (fun kv =>
          if kv.1 == b then (b, DBVal.strs (l ++ cs).dedup) else kv)).map Prod.fst
          = db.map Prod.fst := by
        rw [List.map_map]
        apply List.map_congr_left
        intro kv' _
        by_cases hk : kv'.1 == b
        · simp only [Function.comp, hk, if_pos]
          simp only [beq_iff_eq] at hk
          exact hk.symm
        · simp [Function.comp, hk]
      refine ⟨db.map (fun kv =>
          if kv.1 == b then (b, DBVal.strs (l ++ cs).dedup) else kv), ?_, ?_, ?_, ?_⟩
      · unfold pdb_save
        rw [hf]
        unfold alistSet
        rw [hff]
        simp
      · intro kv' hkv'
        rcases List.mem_map.mp hkv' with ⟨kv0, _, rfl⟩
        by_cases hk : kv0.1 == b
        · exact ⟨(l ++ cs).dedup, by simp [hk]⟩
        · rcases hvals kv0 (by assumption) with ⟨l0, hl0⟩
          exact ⟨l0, by simp [hk, hl0]⟩
      · rw [hmapkeys]
        exact hnd
      · intro b' c
        unfold dbRel
        constructor
        · rintro ⟨l', hmem, hc⟩
          rcases List.mem_map.mp hmem with ⟨kv0, hkv0, heq⟩
          by_cases hk : kv0.1 == b
          · rw [if_pos hk] at heq
            injection heq with h1 h2
            injection h2 with h3
            subst h1
            rw [← h3] at hc
            rcases List.mem_append.mp (List.mem_dedup.mp hc) with h4 | h4
            · exact Or.inl ⟨l, hentry, h4⟩
            · exact Or.inr ⟨rfl, h4⟩
          · rw [if_neg hk] at heq
            exact Or.inl ⟨l', heq ▸ hkv0, hc⟩
        · rintro (⟨l', hmem, hc⟩ | ⟨rfl, hc⟩)
          · by_cases hb' : b' = b
            · subst hb'
              have hll : l' = l := by
                have hv := alist_keys_unique hnd hmem hentry
                injection hv
              subst hll
              refine ⟨(l' ++ cs).dedup, ?_, ?_⟩
              · exact List.mem_map.mpr ⟨(b', DBVal.strs l'), hmem, by simp⟩
              · exact List.mem_dedup.mpr (List.mem_append_left _ hc)
            · refine ⟨l', ?_, hc⟩
              refine List.mem_map.mpr ⟨(b', DBVal.strs l'), hmem, ?_⟩
              simp [hb']
          · refine ⟨(l ++ cs).dedup, ?_, ?_⟩
            · exact List.mem_map.mpr ⟨(b', DBVal.strs l), hentry, by simp⟩
            · exact List.mem_dedup.mpr (List.mem_append_right _ hc)

/-- The database produced by a sequence of `save` operations starting from
the empty document (each operation is a patch basename together with the
commit list passed to `save`). -/
def apply_saves (ops : List (String × List String)) : Option PatchDBData :=
  ops.foldl (fun acc op => acc.bind (fun db => pdb_save db op.1 op.2)) (some [])

theorem apply_saves_spec :
    ∀ (ops : List (String × List String)) (db0 : PatchDBData),
    savedVals db0 → ((db0.map Prod.fst).Nodup) →
    ∃ db, ops.foldl (fun acc op => acc.bind (fun db => pdb_save db op.1 op.2))
        (some db0) = some db
    ∧ savedVals db ∧ (db.map Prod.fst).Nodup
    ∧ (∀ b c, dbRel db b c ↔ (dbRel db0 b c ∨ ∃ op ∈ ops, op.1 = b ∧ c ∈ op.2)) := by
  intro ops
  induction ops with
  | nil =>
      intro db0 hvals hnd
      exact ⟨db0, rfl, hvals, hnd, by simp⟩
  | cons op rest ih =>
      intro db0 hvals hnd
      rcases pdb_save_step db0 op.1 op.2 hvals hnd with ⟨db1, hstep, hvals1, hnd1, hrel1⟩
      rcases ih db1 hvals1 hnd1 with ⟨db, hfold, hvals2, hnd2, hrel2⟩
      refine ⟨db, ?_, hvals2, hnd2, ?_⟩
      · simpa [hstep] using hfold
      · intro b c
        rw [hrel2 b c]
        constructor
        · rintro (h1 | ⟨op', hop', h2, h3⟩)
          · rcases (hrel1 b c).mp h1 with h2 | ⟨rfl, h3⟩
            · exact Or.inl h2
            · exact Or.inr ⟨op, List.mem_cons_self op rest, rfl, h3⟩
          · exact Or.inr ⟨op', List.mem_cons_of_mem op hop', h2, h3⟩
        · rintro (h1 | ⟨op', hop', h2, h3⟩)
          · exact Or.inl ((hrel1 b c).mpr (Or.inl h1))
          · rcases List.mem_cons.mp hop' with rfl | hop''
            · exact Or.inl ((hrel1 b c).mpr (Or.inr ⟨h2.symm, h3⟩))
            · exact Or.inr ⟨op', hop'', h2, h3⟩

theorem mem_required_iff (db : PatchDBData) (hvals : savedVals db)
    (b c : String) : b ∈ pdb_required_patches db c ↔ dbRel db b c := by
  unfold pdb_required_patches dbRel
  constructor
  · intro h
    rcases List.mem_map.mp h with ⟨kv, hkv, rfl⟩
    rcases List.mem_filter.mp hkv with ⟨hmem, hcont⟩
    rcases hvals kv hmem with ⟨l, hl⟩
    refine ⟨l, ?_, ?_⟩
    · rcases kv with ⟨k1, k2⟩
      simp only at hl
      rwa [hl] at hmem
    · rw [hl] at hcont
      simpa [pyContains] using hcont
  · rintro ⟨l, hmem, hc⟩
    refine List.mem_map.mpr ⟨(b, DBVal.strs l), ?_, rfl⟩
    refine List.mem_filter.mpr ⟨hmem, ?_⟩
    simpa [pyContains] using hc

/-- C8: starting from the empty document, after any sequence of `save`
operations a basename appears in `required_patches c` exactly when some
`save` of that basename listed commit `c` — so `save(patch, commits)`
unions the commits into the patch's recorded set without overwriting
earlier entries, afterwards `required_patches c` includes the patch for
each saved commit `c`, and a commit never saved for any patch yields the
empty list. -/
theorem patchdb_save_roundtrip (ops : List (String × List String)) :
    ∃ db, apply_saves ops = some db
    ∧ (∀ b c, b ∈ pdb_required_patches db c ↔ ∃ op ∈ ops, op.1 = b ∧ c ∈ op.2)
    ∧ (∀ c, (∀ op ∈ ops, c ∉ op.2) → pdb_required_patches db c = []) := by
  rcases apply_saves_spec ops [] (by intro kv h; simp at h) (by simp)
    with ⟨db, heq, hvals, hnd, hrel⟩
  refine ⟨db, heq, ?_, ?_⟩
  · intro b c
    rw [mem_required_iff db hvals b c, hrel b c]
    simp [dbRel]
  · intro c hnever
    rw [List.eq_nil_iff_forall_not_mem]
    intro b hb
    have := (mem_required_iff db hvals b c).mp hb
    rcases (hrel b c).mp this with h1 | ⟨op, hop, _, h3⟩
    · rcases h1 with ⟨l, hmem, _⟩
      simp at hmem
    · exact hnever op hop h3

/-! ### Bisection engine (`patcher/patcher.py`, claim C5) -/

/-- Embeds `Patcher._adjust_bisection_midpoint_after_failure`.  Raising
("Failed too many times in a row while bisecting") is `none`.  The float
step computations `int(0.9 * range_size)` and `int(0.2 * range_size)` are
modelled as `9 * n / 10` and `2 * n / 10` in natural arithmetic (float
rounding could differ by one at rare boundary values; no theorem below
depends on the step values). -/
def adjust_bisection_midpoint (repo : RepoModel)
    (double_fail_counter max_double_fail : Nat)
    (bad midpoint good : Commit) : Option Commit :=
  if double_fail_counter ≥ max_double_fail then none
  else if double_fail_counter % 2 == 0 then
    let range_size := (repo.direct_first_parent_path midpoint bad).length
    let step := max (9 * range_size / 10) 1
    some (repo.back bad step)
  else
    let range_size := (repo.direct_first_parent_path good midpoint).length
    let step := max (2 * range_size / 10) 1
    some (repo.back midpoint step)

/-- Loop state of `Patcher._bisection`: the bracket, the current midpoint,
the double-fail counter and flag, plus an instrumentation counter of
classification probes (calls to `_check_building_patches`). -/
structure BisectionState where
  good : Commit
  bad : Commit
  midpoint : Commit
  dfc : Nat
  edf : Bool
  probes : Nat
  deriving DecidableEq, Repr

/-- How a `_bisection` run ends: normal convergence, the double-fail
exception, or fuel exhaustion of the embedding (the source loop is
`while True`). -/
inductive BisectionOutcome where
  | finished (good bad : Commit) (probes : Nat)
  | raised (good bad : Commit) (probes dfc : Nat)
  | fuelOut
  deriving DecidableEq, Repr

/-- The classification step at the bottom of the `_bisection` loop body.
`check` abstracts `self._check_building_patches(project, repo, midpoint,
patches)` as a function of the probed midpoint (all its other arguments
are loop invariants). -/
def bisection_classify (check : Commit → PatchingResult)
    (failure_is_good : Bool) (st : BisectionState) : BisectionState :=
  let st1 := { st with probes := st.probes + 1 }
  match check st.midpoint with
  | .BuildFailed => { st1 with edf := true }
  | r =>
      if (r == .BuildsWithoutPatching) ^^ failure_is_good
      then { st1 with good := st.midpoint }
      else { st1 with bad := st.midpoint }

/-- Embeds the `while True` loop of `Patcher._bisection`, with explicit
fuel.  A pending double failure adjusts the midpoint (or raises at the
ceiling) and re-probes immediately; otherwise the next git-bisect midpoint
is taken, with convergence when it is empty or unchanged. -/
def bisection_loop (repo : RepoModel) (check : Commit → PatchingResult)
    (failure_is_good : Bool) (max_double_fail : Nat) :
    Nat → BisectionState → BisectionOutcome
  | 0, _ => .fuelOut
  | fuel + 1, st =>
      if st.edf then
        match adjust_bisection_midpoint repo st.dfc max_double_fail
            st.bad st.midpoint st.good with
        | none => .raised st.good st.bad st.probes st.dfc
        | some m =>
            bisection_loop repo check failure_is_good max_double_fail fuel
              (bisection_classify check failure_is_good
                { st with midpoint := m, dfc := st.dfc + 1, edf := false })
      else
        let m := repo.next_bisection_commit st.good st.bad
        if m == "" || m == st.midpoint then .finished st.good st.bad st.probes
        else
          bisection_loop repo check failure_is_good max_double_fail fuel
            (bisection_classify check failure_is_good { st with midpoint := m })

/-- Embeds `Patcher._bisection` (initial midpoint is the empty string,
counters at zero; the source default ceiling is `max_double_fail = 2`). -/
def bisection_run (repo : RepoModel) (check : Commit → PatchingResult)
    (failure_is_good : Bool) (max_double_fail : Nat) (fuel : Nat)
    (good_rev bad_rev : Commit) : BisectionOutcome :=
  bisection_loop repo check failure_is_good max_double_fail fuel
    ⟨good_rev, bad_rev, "", 0, false, 0⟩

/-- C5: when every probed midpoint double-fails (fails to build both
without and with patches), a bisection that probes at least once raises
after exactly the configured ceiling (2) of recovery attempts — three
probes, two midpoint adjustments, counter at the ceiling — with the
good/bad bracket never moved; the outcome is the same for every
sufficient fuel, so the loop never runs forever. -/
theorem bisection_double_fail_ceiling (repo : RepoModel)
    (check : Commit → PatchingResult) (failure_is_good : Bool)
    (good bad : Commit) (fuel : Nat)
    (hck : ∀ c, check c = .BuildFailed)
    (hmid : repo.next_bisection_commit good bad ≠ "")
    (hfuel : 4 ≤ fuel) :
    bisection_run repo check failure_is_good 2 fuel good bad
      = .raised good bad 3 2 := by
  obtain ⟨k, rfl⟩ : ∃ k, fuel = k + 4 := ⟨fuel - 4, by omega⟩
  have hm' : (repo.next_bisection_commit good bad == "") = false := by
    simpa using hmid
  unfold bisection_run
  simp [bisection_loop, bisection_classify, adjust_bisection_midpoint, hck, hm']

/-- Witness for C5: a concrete repository model and an always-double-fail
classification raise after exactly two recovery attempts and three
probes, leaving the bracket (g, b) untouched. -/
theorem bisection_double_fail_ceiling_witness :
    bisection_run
      ⟨fun x => x, fun _ _ => true, fun _ _ => ["m", "g"], fun _ _ => "m",
        fun c _ => c ++ "~"⟩
      (fun _ => .BuildFailed) false 2 10 "g" "b" = .raised "g" "b" 3 2 := by
  exact bisection_double_fail_ceiling
    ⟨fun x => x, fun _ _ => true, fun _ _ => ["m", "g"], fun _ _ => "m",
      fun c _ => c ++ "~"⟩
    (fun _ => .BuildFailed) false "g" "b" 10 (fun _ => rfl) (by decide) (by omega)

/-- Witness for C8, instantiating the round trip at
`save("p.patch", ["c1", "c2"])`. -/
theorem patchdb_save_roundtrip_witness :
    ∃ db, apply_saves [("p.patch", ["c1", "c2"])] = some db
    ∧ (∀ b c, b ∈ pdb_required_patches db c
        ↔ ∃ op ∈ [("p.patch", ["c1", "c2"])], op.1 = b ∧ c ∈ op.2)
    ∧ (∀ c, (∀ op ∈ [("p.patch", ["c1", "c2"])], c ∉ op.2) →
        pdb_required_patches db c = []) :=
  patchdb_save_roundtrip [("p.patch", ["c1", "c2"])]

/-! ### Builder (`builder/builder.py`, claims C7 and C9) and the
store-integrated coordinator (claim C3)

The filesystem facts a single (project, commit) build attempt touches are
the existence of its install prefix, of the `DONE` success indicator
inside it, and of the `WORKER_PID` lock record (holding the writer's pid).
Paths are lists of components. -/

/-- Filesystem state of one install prefix. -/
structure FS where
  installExists : Bool
  doneExists : Bool
  workerPid : Option Nat
  deriving DecidableEq, Repr

/-- Embeds `BuildContext.__enter__`: create the install prefix
(`os.makedirs(..., exist_ok=True)`) and write this worker's pid into the
lock record.  The temporary build directory and the log file are not
modelled. -/
def context_enter (fs : FS) (myPid : Nat) : FS :=
  { fs with installExists := true, workerPid := some myPid }

/-- Embeds `BuildContext.__exit__`: remove the `WORKER_PID` lock record,
then — when the success indicator is missing — delete the whole install
prefix (`shutil.rmtree`). -/
def context_exit (fs : FS) : FS :=
  let fs1 := { fs with workerPid := none }
  if fs1.doneExists then fs1
  else { installExists := false, doneExists := false, workerPid := none }

/-- Outcome of a build attempt: the returned install path, a
`BuildException`, a raw `CalledProcessError` (the `git worktree add` step
is not wrapped), or non-termination of the wait-poll loop under an
unchanging filesystem. -/
inductive BuildOutcome where
  | ok (p : List String)
  | buildExc
  | calledProcessErr
  | hangs
  deriving DecidableEq, Repr

/-- Embeds `get_install_path`: `cache_prefix / projectname-commit`. -/
def install_path_for (cachePfx : List String) (p : CompilerProject)
    (commit : Commit) : List String :=
  cachePfx ++ [(match p with | .LLVM => "clang" | .GCC => "gcc") ++ "-" ++ commit]

/-- Embeds `get_executable_postfix`: `bin/<driver>`. -/
def executable_suffix (p : CompilerProject) : List String :=
  ["bin", match p with | .LLVM => "clang" | .GCC => "gcc"]

/-- Embeds `build_and_install_compiler`.  The external steps are abstract
booleans: `worktreeOk` (the `git worktree add` call), `patchesNonempty`
(whether `required_patches(commit) + additional_patches` is non-empty),
`patchOk` (`apply_patches`), `recipeOk` (the project's
build-and-install recipe).  On recipe success the `DONE` indicator is
touched before the context exits; every path runs `BuildContext.__exit__`. -/
def build_and_install_compiler (fs : FS) (myPid : Nat)
    (installPath : List String) (p : CompilerProject) (getExec : Bool)
    (worktreeOk patchesNonempty patchOk recipeOk : Bool) : FS × BuildOutcome :=
  let fs1 := context_enter fs myPid
  if !worktreeOk then (context_exit fs1, .calledProcessErr)
  else if patchesNonempty && !patchOk then (context_exit fs1, .buildExc)
  else if !recipeOk then (context_exit fs1, .buildExc)
  else
    let fs2 := { fs1 with doneExists := true }
    (context_exit fs2,
      .ok (installPath ++ (if getExec then executable_suffix p else [])))

/-- Embeds `_worker_alive`: the lock record exists and its recorded pid
still names a live process (`os.kill(pid, 0)`), where `alive` is the
process table. -/
def worker_alive (alive : Nat → Bool) (fs : FS) : Bool :=
  match fs.workerPid with
  | some pid => alive pid
  | none => false

/-- Embeds `Builder.build` (the cache-aware subclass in
`builder/builder.py`).  Without `force`: a present success indicator
returns the cached path immediately; an existing install path with a live
worker enters the sleep-poll loop, whose condition (worker alive, no
success marker, path present) holds on entry and — with no other process
mutating the filesystem in this single-process model — never changes, so
the loop never exits (`hangs`).  Otherwise the build is performed via
`build_and_install_compiler`.   The last component counts Build Executor
invocations (calls of `build_and_install_compiler`). -/
def builder_build (alive : Nat → Bool) (myPid : Nat) (repo : RepoModel)
    (cachePfx : List String) (fs : FS) (p : CompilerProject) (rev : String)
    (getExec force : Bool)
    (worktreeOk patchesNonempty patchOk recipeOk : Bool) :
    FS × BuildOutcome × Nat :=
  let commit := repo.rev_to_commit rev
  let ip := install_path_for cachePfx p commit
  let sfx := if getExec then executable_suffix p else []
  if !force && fs.doneExists then (fs, .ok (ip ++ sfx), 0)
  else if !force && (fs.installExists && worker_alive alive fs) then
    (fs, .hangs, 0)
  else
    match build_and_install_compiler fs myPid ip p getExec
        worktreeOk patchesNonempty patchOk recipeOk with
    | (fs', out) => (fs', out, 1)

/-- C7: when a first `Builder.build` call returns successfully, a second
call with identical arguments performs no further Build Executor
invocation and returns the same filesystem and an equal result. -/
theorem builder_build_idempotent (alive : Nat → Bool) (myPid : Nat)
    (repo : RepoModel) (cachePfx : List String) (fs : FS)
    (p : CompilerProject) (rev : String) (getExec : Bool)
    (worktreeOk patchesNonempty patchOk recipeOk : Bool)
    (fs' : FS) (res : List String) (n : Nat)
    (h : builder_build alive myPid repo cachePfx fs p rev getExec false
        worktreeOk patchesNonempty patchOk recipeOk = (fs', .ok res, n)) :
    builder_build alive myPid repo cachePfx fs' p rev getExec false
        worktreeOk patchesNonempty patchOk recipeOk = (fs', .ok res, 0) := by
  unfold builder_build at h ⊢
  simp only [Bool.not_false, Bool.true_and] at h ⊢
  by_cases hd : fs.doneExists = true
  · rw [if_pos hd] at h
    injection h with h1 hrest
    injection hrest with h2 h3
    subst h1
    injection h2 with h2
    rw [if_pos hd, h2]
  · rw [if_neg hd] at h
    by_cases hw : (fs.installExists && worker_alive alive fs) = true
    · rw [if_pos hw] at h
      injection h with h1 hrest
      injection hrest with h2 h3
      cases h2
    · rw [if_neg hw] at h
      unfold build_and_install_compiler context_enter context_exit at h
      by_cases hwk : worktreeOk = true
      · by_cases hpa : (patchesNonempty && !patchOk) = true
        · simp [hwk, hpa] at h
        · by_cases hrc : recipeOk = true
          · simp [hwk, hpa, hrc] at h
            obtain ⟨h1, h2, h3⟩ := h
            subst h1
            simpa using h2
          · simp [hwk, hpa, hrc] at h
      · simp [hwk] at h

/-- Witness for C7: a fresh install prefix, a successful first build
(worktree, patches and recipe all succeed), then a second call with
identical arguments that returns the cached result with zero executor
invocations. -/
theorem builder_build_idempotent_witness :
    builder_build (fun _ => false) 7
      ⟨fun x => x, fun _ _ => true, fun _ _ => [], fun _ _ => "", fun c _ => c⟩
      ["cache"] ⟨true, true, none⟩ .GCC "c1" false false true false true true
      = (⟨true, true, none⟩, .ok ["cache", "gcc-c1"], 0) :=
  builder_build_idempotent (fun _ => false) 7
    ⟨fun x => x, fun _ _ => true, fun _ _ => [], fun _ _ => "", fun c _ => c⟩
    ["cache"] ⟨false, false, none⟩ .GCC "c1" false true false true true
    ⟨true, true, none⟩ ["cache", "gcc-c1"] 1 (by decide)

/-- Recording a failure makes `has_previously_failed_to_build` hold for
that key. -/
theorem add_failed_records (st : StoreState) (p : CompilerProject)
    (c : Commit) :
    has_previously_failed_to_build (add_failed_to_build_compiler st p c) p c
      = true := by
  unfold add_failed_to_build_compiler
  by_cases h : has_previously_failed_to_build st p c = true
  · rw [if_pos h]
    exact h
  · rw [if_neg h]
    unfold has_previously_failed_to_build
    simp

/-- A path rendered as the string stored in the compiler database. -/
def pathStr (l : List String) : String := String.intercalate "/" l

/-- Outcome of the store-integrated coordinator: the install prefix, or a
`BuildError`. -/
inductive CoordOutcome where
  | ok (pfxPath : String)
  | buildError
  deriving DecidableEq, Repr

/-- Modelled from the spec: the build step of the store-integrated
coordinator (§4.2 steps 5-7) — run `build_and_install_compiler`; on
success record the built compiler in the store and return the install
prefix; on any build failure record the failure in the store and re-raise
as `BuildError`.  The compiler-store-aware `Builder` this models — the one
`__init__.py` constructs with `cstore=...` — is not among the source
files; only its caller and the `CompilerStore` it drives are.  The last
component counts Build Executor invocations. -/
def coordinator_run_build (done : String → Bool) (st : StoreState) (fs : FS)
    (myPid : Nat) (ip : List String) (p : CompilerProject) (commit : Commit)
    (worktreeOk patchesNonempty patchOk recipeOk : Bool) :
    StoreState × FS × CoordOutcome × Nat :=
  match build_and_install_compiler fs myPid ip p false
      worktreeOk patchesNonempty patchOk recipeOk with
  | (fs', .ok _) =>
      ((add_compilers done st [⟨p, pathStr ip, commit⟩]).1, fs', .ok (pathStr ip), 1)
  | (fs', _) =>
      (add_failed_to_build_compiler st p commit, fs', .buildError, 1)

/-- Modelled from the spec: the store-integrated coordinator `build`
(§4.2) — resolve the revision, return a `get_built` cache hit immediately,
fail fast with `BuildError` on a recorded failure unless `force`, and
otherwise build (the concurrent-wait branch of step 4 concerns multiple
processes and is outside the settled claims). -/
def coordinator_build (done : String → Bool) (st : StoreState) (fs : FS)
    (myPid : Nat) (repo : RepoModel) (cachePfx : List String)
    (p : CompilerProject) (rev : String) (force : Bool)
    (worktreeOk patchesNonempty patchOk recipeOk : Bool) :
    StoreState × FS × CoordOutcome × Nat :=
  let commit := repo.rev_to_commit rev
  let ip := install_path_for cachePfx p commit
  if force then
    coordinator_run_build done st fs myPid ip p commit
      worktreeOk patchesNonempty patchOk recipeOk
  else
    match get_built_compiler done st p commit with
    | (st1, some bci) => (st1, fs, .ok bci.pfx, 0)
    | (st1, none) =>
        if has_previously_failed_to_build st1 p commit then
          (st1, fs, .buildError, 0)
        else
          coordinator_run_build done st1 fs myPid ip p commit
            worktreeOk patchesNonempty patchOk recipeOk

/-- C3: for a key recorded as failed (and not built), a `build` without
`force` raises `BuildError` immediately with zero Build Executor
invocations, while `force = true` invokes the Build Executor (exactly
once) again. -/
theorem failure_memoization (done : String → Bool) (st : StoreState)
    (fs : FS) (myPid : Nat) (repo : RepoModel) (cachePfx : List String)
    (p : CompilerProject) (rev : String)
    (worktreeOk patchesNonempty patchOk recipeOk : Bool)
    (hfail : has_previously_failed_to_build st p (repo.rev_to_commit rev) = true)
    (hnotbuilt : findBuilt st p (repo.rev_to_commit rev) = none) :
    coordinator_build done st fs myPid repo cachePfx p rev false
        worktreeOk patchesNonempty patchOk recipeOk
      = (st, fs, .buildError, 0)
    ∧ (coordinator_build done st fs myPid repo cachePfx p rev true
        worktreeOk patchesNonempty patchOk recipeOk).2.2.2 = 1 := by
  have hge : get_built_compiler done st p (repo.rev_to_commit rev) = (st, none) := by
    unfold get_built_compiler
    rw [hnotbuilt]
  constructor
  · unfold coordinator_build
    simp only [Bool.false_eq_true, if_false, hge, hfail, if_true]
  · unfold coordinator_build coordinator_run_build
    simp only [if_pos rfl]
    rcases hb : build_and_install_compiler fs myPid
        (install_path_for cachePfx p (repo.rev_to_commit rev)) p false
        worktreeOk patchesNonempty patchOk recipeOk with ⟨fs', out⟩
    cases out <;> simp [hb]

/-- Witness for C3: an empty built table with (GCC, c1) recorded as
failed; the non-force call fails fast without invoking the executor and
the force call invokes it once. -/
theorem failure_memoization_witness :
    coordinator_build (fun _ => true) ⟨[], [(.GCC, "c1")]⟩ ⟨false, false, none⟩
        7 ⟨fun x => x, fun _ _ => true, fun _ _ => [], fun _ _ => "", fun c _ => c⟩
        ["cache"] .GCC "c1" false true false true true
      = (⟨[], [(.GCC, "c1")]⟩, ⟨false, false, none⟩, .buildError, 0)
    ∧ (coordinator_build (fun _ => true) ⟨[], [(.GCC, "c1")]⟩ ⟨false, false, none⟩
        7 ⟨fun x => x, fun _ _ => true, fun _ _ => [], fun _ _ => "", fun c _ => c⟩
        ["cache"] .GCC "c1" true true false true true).2.2.2 = 1 :=
  failure_memoization (fun _ => true) ⟨[], [(.GCC, "c1")]⟩ ⟨false, false, none⟩
    7 ⟨fun x => x, fun _ _ => true, fun _ _ => [], fun _ _ => "", fun c _ => c⟩
    ["cache"] .GCC "c1" true false true true (by decide) (by decide)

/-- C9: for a build attempt on a prefix without a pre-existing success
marker (the situation in which an attempt is made — a marked prefix is
returned from cache), every exit from the locked build section removes
the WORKER_PID lock record, an install prefix only survives together with
its success marker, a build-recipe failure deletes the install path
entirely and surfaces as a `BuildException`, and the coordinator records
such a failure in the store and re-raises `BuildError`. -/
theorem build_cleanup_and_failure_recording (done : String → Bool)
    (st : StoreState) (fs : FS) (myPid : Nat) (ip : List String)
    (p : CompilerProject) (commit : Commit) (getExec : Bool)
    (worktreeOk patchesNonempty patchOk recipeOk : Bool)
    (hdone : fs.doneExists = false) :
    (∀ fs' out, build_and_install_compiler fs myPid ip p getExec
        worktreeOk patchesNonempty patchOk recipeOk = (fs', out) →
      fs'.workerPid = none
      ∧ (fs'.installExists = true → fs'.doneExists = true)
      ∧ (worktreeOk = true → (patchesNonempty && !patchOk) = false →
          recipeOk = false →
          out = .buildExc ∧ fs'.installExists = false))
    ∧ (worktreeOk = true → (patchesNonempty && !patchOk) = false →
        recipeOk = false →
        coordinator_run_build done st fs myPid ip p commit
            worktreeOk patchesNonempty patchOk recipeOk
          = (add_failed_to_build_compiler st p commit,
             (build_and_install_compiler fs myPid ip p false
               worktreeOk patchesNonempty patchOk recipeOk).1,
             .buildError, 1)
        ∧ has_previously_failed_to_build
            (add_failed_to_build_compiler st p commit) p commit = true) := by
  constructor
  · intro fs' out h
    unfold build_and_install_compiler context_enter context_exit at h
    by_cases hwk : worktreeOk = true
    · by_cases hpa : (patchesNonempty && !patchOk) = true
      · simp [hwk, hpa, hdone] at h
        obtain ⟨h1, h2⟩ := h
        subst h1 h2
        refine ⟨rfl, by simp, ?_⟩
        intro _ hc
        rw [hc] at hpa
        cases hpa
      · by_cases hrc : recipeOk = true
        · simp [hwk, hpa, hrc, hdone] at h
          obtain ⟨h1, h2⟩ := h
          subst h1 h2
          refine ⟨rfl, by simp, ?_⟩
          intro _ _ hc
          rw [hrc] at hc
          cases hc
        · simp [hwk, hpa, hrc, hdone] at h
          obtain ⟨h1, h2⟩ := h
          subst h1 h2
          exact ⟨rfl, by simp, fun _ _ _ => ⟨rfl, rfl⟩⟩
    · simp [hwk, hdone] at h
      obtain ⟨h1, h2⟩ := h
      subst h1 h2
      refine ⟨rfl, by simp, ?_⟩
      intro hc
      exact absurd hc hwk
  · intro hwk hpa hrc
    have hb : build_and_install_compiler fs myPid ip p false
        worktreeOk patchesNonempty patchOk recipeOk
        = (⟨false, false, none⟩, .buildExc) := by
      unfold build_and_install_compiler context_enter context_exit
      simp [hwk, hpa, hrc, hdone]
    unfold coordinator_run_build
    rw [hb]
    exact ⟨rfl, add_failed_records st p commit⟩

/-- Witness for C9: a failing recipe on a fresh prefix leaves no lock
record and no install path, raises, and the coordinator records the
failure for (GCC, c1). -/
theorem build_cleanup_and_failure_recording_witness :
    (FS.workerPid ⟨false, false, none⟩ = none
      ∧ (FS.installExists (⟨false, false, none⟩ : FS) = true →
          FS.doneExists (⟨false, false, none⟩ : FS) = true)
      ∧ (true = true → (false && !true) = false → false = false →
          BuildOutcome.buildExc = .buildExc
          ∧ FS.installExists (⟨false, false, none⟩ : FS) = false))
    ∧ (coordinator_run_build (fun _ => true) ⟨[], []⟩ ⟨false, false, none⟩
          7 ["cache", "gcc-c1"] .GCC "c1" true false true false
        = (add_failed_to_build_compiler ⟨[], []⟩ .GCC "c1", ⟨false, false, none⟩,
           .buildError, 1)
      ∧ has_previously_failed_to_build
          (add_failed_to_build_compiler ⟨[], []⟩ .GCC "c1") .GCC "c1" = true) := by
  have h := build_cleanup_and_failure_recording (fun _ => true) ⟨[], []⟩
    ⟨false, false, none⟩ 7 ["cache", "gcc-c1"] .GCC "c1" false true false true false
    (by decide)
  refine ⟨h.1 ⟨false, false, none⟩ .buildExc (by decide), ?_⟩
  have h2 := h.2 rfl rfl rfl
  have hb : (build_and_install_compiler ⟨false, false, none⟩ 7
      ["cache", "gcc-c1"] .GCC false true false true false).1
      = (⟨false, false, none⟩ : FS) := by decide
  rw [hb] at h2
  exact h2

end CCBuilder
